import Mathlib

/-!
# Verification of `scheduler.py` (`get_biased_timesteps`)

Shallow embedding of the single function `get_biased_timesteps(num_steps, m, s)`
from `src/scheduler.py`:

```
u = np.linspace(0, 1, num_steps)
eps = np.finfo(float).eps
u = np.clip(u, eps, 1 - eps)
v = m + s * norm.ppf(u)
t = (v - v.min()) / (v.max() - v.min()) * (num_steps - 1)
timesteps = np.round(t).astype(int)
timesteps = np.clip(timesteps, 0, num_steps - 1)
for i in range(1, len(timesteps)):
    if timesteps[i] < timesteps[i-1]:
        timesteps[i] = timesteps[i-1]
return timesteps.tolist()
```

Modelling choices:
* Real/float values are modelled as exact rationals `ℚ`.  The claims under
  study are order/field-algebraic, so they are stated over the exact field.
* `norm.ppf` (the inverse standard-normal CDF, a scipy numeric primitive,
  irrational-valued) is a parameter `ppf : ℚ → ℚ` of every definition.
  The analytic facts the code relies on (strict monotonicity on `(0,1)`,
  the reflection identity `Φ⁻¹(1-u) = -Φ⁻¹(u)`) become hypotheses where a
  claim needs them.
* `np.finfo(float).eps` is the 64-bit machine epsilon `2⁻⁵²`, an exact
  rational.
* `np.round` is round-half-to-even (banker's rounding), embedded exactly.
* numpy raises `ValueError` for `np.linspace(0, 1, num)` with `num < 0`,
  and for `v.min()` on the empty array produced when `num = 0`; the
  embedding returns `Except.error` at the corresponding point.  The spec's
  `InvalidArgument` error kind is a further constructor of the error type
  so that statements about it can be made; the code never produces it.
* For `num_steps = 1` the true float pipeline computes `t = 0.0/0.0 = nan`,
  casts `nan` to `int` (giving `INT64_MIN` on the reference platform) and
  clips it to `0`.  In `ℚ`, division by zero is `0`, and `0` likewise clips
  to `0`: the embedding agrees with the observed output `[0]`.
-/

namespace Scheduler

/-- Errors observable from the Python function.  `valueError` models the
`ValueError` numpy raises (negative sample count in `linspace`; empty-array
`min` reduction).  `invalidArgument` is the error kind the spec names; the
code has no code path producing it. -/
inductive PyError where
  | valueError : PyError
  | invalidArgument : PyError
deriving DecidableEq

/-- `np.finfo(float).eps` for 64-bit doubles: `2⁻⁵²`. -/
def eps : ℚ := 1 / 2 ^ 52

/-- `np.clip(x, lo, hi)` on scalars: lower bound applied first, then upper. -/
def npClip (lo hi x : ℚ) : ℚ := min hi (max lo x)

/-- `np.clip(x, lo, hi)` on integers (stage 5). -/
def intClip (lo hi x : ℤ) : ℤ := min hi (max lo x)

/-- `np.linspace(0, 1, n)` for `n ≥ 0`: `n` evenly spaced values from 0 to 1
inclusive.  numpy special-cases `n = 0` (empty) and `n = 1` (`[0.0]`); for
`n ≥ 2` the step is `1/(n-1)`. -/
def linspace01 (n : ℕ) : List ℚ :=
  if n ≤ 1 then List.replicate n 0
  else (List.range n).map (fun i : ℕ => (i : ℚ) / ((n : ℚ) - 1))

/-- `a.min()` of a numpy array as a total function on nonempty lists
(the empty case is guarded by the caller, matching the `ValueError`). -/
def qMin : List ℚ → ℚ
  | [] => 0
  | x :: xs => xs.foldl min x

/-- `a.max()` of a numpy array (same convention as `qMin`). -/
def qMax : List ℚ → ℚ
  | [] => 0
  | x :: xs => xs.foldl max x

/-- `np.round`: round half to even (banker's rounding), exact on `ℚ`. -/
def roundHE (x : ℚ) : ℤ :=
  let f := ⌊x⌋
  let r := x - (f : ℚ)
  if r < 1 / 2 then f
  else if 1 / 2 < r then f + 1
  else if 2 ∣ f then f else f + 1

/-- Stage 6, inner state: the in-place loop
`if ts[i] < ts[i-1] then ts[i] := ts[i-1]`, with `prev` the (already
repaired) previous element. -/
def monoRepairAux (prev : ℤ) : List ℤ → List ℤ
  | [] => []
  | x :: xs =>
      let y := if x < prev then prev else x
      y :: monoRepairAux y xs

/-- Stage 6: the monotonic-repair loop (first element never modified). -/
def monoRepair : List ℤ → List ℤ
  | [] => []
  | x :: xs => x :: monoRepairAux x xs

/-- Stages 1–2: `u = np.clip(np.linspace(0, 1, n), eps, 1 - eps)`. -/
def uStage (n : ℕ) : List ℚ := (linspace01 n).map (npClip eps (1 - eps))

/-- Stage 3: `v = m + s * norm.ppf(u)`. -/
def vStage (ppf : ℚ → ℚ) (n : ℕ) (m s : ℚ) : List ℚ :=
  (uStage n).map (fun u => m + s * ppf u)

/-- Stage 4: `t = (v - v.min()) / (v.max() - v.min()) * (n - 1)`, the
continuous pre-repair sequence. -/
def tStage (ppf : ℚ → ℚ) (n : ℕ) (m s : ℚ) : List ℚ :=
  (vStage ppf n m s).map (fun x =>
    (x - qMin (vStage ppf n m s)) /
      (qMax (vStage ppf n m s) - qMin (vStage ppf n m s)) * ((n : ℚ) - 1))

/-- Stage 5: `timesteps = np.clip(np.round(t).astype(int), 0, n - 1)`. -/
def roundStage (ppf : ℚ → ℚ) (n : ℕ) (m s : ℚ) : List ℤ :=
  ((tStage ppf n m s).map roundHE).map (intClip 0 ((n : ℤ) - 1))

/-- `get_biased_timesteps(num_steps, m, s)` from `src/scheduler.py`,
parametrised by the probit primitive `ppf`.  For `num_steps < 0`,
`np.linspace` raises `ValueError`; for `num_steps = 0`, stages 1–3 run on
the empty array and `v.min()` raises `ValueError`.  Otherwise the pipeline
returns the repaired integer list. -/
def get_biased_timesteps (ppf : ℚ → ℚ) (num_steps : ℤ) (m s : ℚ) :
    Except PyError (List ℤ) :=
  if num_steps < 0 then .error .valueError
  else if num_steps = 0 then .error .valueError
  else .ok (monoRepair (roundStage ppf num_steps.toNat m s))

/-- The stage-6-free variant of the function: identical pipeline with the
monotonic-repair loop removed (for the refinement claim). -/
def get_biased_timesteps_norepair (ppf : ℚ → ℚ) (num_steps : ℤ) (m s : ℚ) :
    Except PyError (List ℤ) :=
  if num_steps < 0 then .error .valueError
  else if num_steps = 0 then .error .valueError
  else .ok (roundStage ppf num_steps.toNat m s)

/-! ## Basic numeric facts -/

theorem eps_pos : 0 < eps := by norm_num [eps]

theorem eps_lt_half : eps < 1 / 2 := by norm_num [eps]

theorem eps_le_one_sub_eps : eps ≤ 1 - eps := by norm_num [eps]

theorem eps_lt_one_sub_eps : eps < 1 - eps := by norm_num [eps]

/-! ## `foldl min` / `foldl max` and `qMin` / `qMax` -/

theorem foldl_min_le_init (xs : List ℚ) (x : ℚ) : xs.foldl min x ≤ x := by
  induction xs generalizing x with
  | nil => exact le_refl x
  | cons a as ih => exact le_trans (ih (min x a)) (min_le_left x a)

theorem foldl_min_le_mem (xs : List ℚ) (x y : ℚ) (h : y ∈ xs) : xs.foldl min x ≤ y := by
  induction xs generalizing x with
  | nil => cases h
  | cons a as ih =>
      rcases List.mem_cons.mp h with rfl | hy
      · exact le_trans (foldl_min_le_init as (min x y)) (min_le_right x y)
      · exact ih (min x a) hy

theorem foldl_min_eq_or_mem (xs : List ℚ) (x : ℚ) :
    xs.foldl min x = x ∨ xs.foldl min x ∈ xs := by
  induction xs generalizing x with
  | nil => exact Or.inl rfl
  | cons a as ih =>
      rcases ih (min x a) with h | h
      · rcases min_choice x a with hm | hm
        · exact Or.inl (by rw [List.foldl_cons, h, hm])
        · exact Or.inr (by rw [List.foldl_cons, h, hm]; exact List.mem_cons_self a as)
      · exact Or.inr (List.mem_cons_of_mem a h)

theorem init_le_foldl_max (xs : List ℚ) (x : ℚ) : x ≤ xs.foldl max x := by
  induction xs generalizing x with
  | nil => exact le_refl x
  | cons a as ih => exact le_trans (le_max_left x a) (ih (max x a))

theorem mem_le_foldl_max (xs : List ℚ) (x y : ℚ) (h : y ∈ xs) : y ≤ xs.foldl max x := by
  induction xs generalizing x with
  | nil => cases h
  | cons a as ih =>
      rcases List.mem_cons.mp h with rfl | hy
      · exact le_trans (le_max_right x y) (init_le_foldl_max as (max x y))
      · exact ih (max x a) hy

theorem foldl_max_eq_or_mem (xs : List ℚ) (x : ℚ) :
    xs.foldl max x = x ∨ xs.foldl max x ∈ xs := by
  induction xs generalizing x with
  | nil => exact Or.inl rfl
  | cons a as ih =>
      rcases ih (max x a) with h | h
      · rcases max_choice x a with hm | hm
        · exact Or.inl (by rw [List.foldl_cons, h, hm])
        · exact Or.inr (by rw [List.foldl_cons, h, hm]; exact List.mem_cons_self a as)
      · exact Or.inr (List.mem_cons_of_mem a h)

theorem qMin_le (l : List ℚ) (y : ℚ) (h : y ∈ l) : qMin l ≤ y := by
  cases l with
  | nil => cases h
  | cons x xs =>
      rcases List.mem_cons.mp h with rfl | hy
      · exact foldl_min_le_init xs y
      · exact foldl_min_le_mem xs x y hy

theorem le_qMax (l : List ℚ) (y : ℚ) (h : y ∈ l) : y ≤ qMax l := by
  cases l with
  | nil => cases h
  | cons x xs =>
      rcases List.mem_cons.mp h with rfl | hy
      · exact init_le_foldl_max xs y
      · exact mem_le_foldl_max xs x y hy

theorem qMin_mem (l : List ℚ) (h : l ≠ []) : qMin l ∈ l := by
  cases l with
  | nil => exact absurd rfl h
  | cons x xs =>
      rcases foldl_min_eq_or_mem xs x with he | he
      · show xs.foldl min x ∈ x :: xs
        rw [he]; exact List.mem_cons_self x xs
      · exact List.mem_cons_of_mem x he

theorem qMax_mem (l : List ℚ) (h : l ≠ []) : qMax l ∈ l := by
  cases l with
  | nil => exact absurd rfl h
  | cons x xs =>
      rcases foldl_max_eq_or_mem xs x with he | he
      · show xs.foldl max x ∈ x :: xs
        rw [he]; exact List.mem_cons_self x xs
      · exact List.mem_cons_of_mem x he

theorem qMin_eq_of (l : List ℚ) (a : ℚ) (ha : a ∈ l) (h : ∀ y ∈ l, a ≤ y) :
    qMin l = a :=
  le_antisymm (qMin_le l a ha)
    (h (qMin l) (qMin_mem l (List.ne_nil_of_mem ha)))

theorem qMax_eq_of (l : List ℚ) (a : ℚ) (ha : a ∈ l) (h : ∀ y ∈ l, y ≤ a) :
    qMax l = a :=
  le_antisymm (h (qMax l) (qMax_mem l (List.ne_nil_of_mem ha)))
    (le_qMax l a ha)

theorem qMin_le_qMax (l : List ℚ) (h : l ≠ []) : qMin l ≤ qMax l :=
  le_qMax l (qMin l) (qMin_mem l h)

/-! ## Pointwise form of the stages -/

/-- The `i`-th clipped fraction (stages 1–2, pointwise). -/
def uf (n i : ℕ) : ℚ := npClip eps (1 - eps) ((i : ℚ) / ((n : ℚ) - 1))

/-- The `i`-th warped value (stage 3, pointwise). -/
def vf (ppf : ℚ → ℚ) (n : ℕ) (m s : ℚ) (i : ℕ) : ℚ := m + s * ppf (uf n i)

theorem linspace01_eq_map (n : ℕ) :
    linspace01 n = (List.range n).map (fun i : ℕ => (i : ℚ) / ((n : ℚ) - 1)) := by
  match n with
  | 0 => rfl
  | 1 =>
      show List.replicate 1 (0 : ℚ) = [(0 : ℚ) / ((1 : ℚ) - 1)]
      norm_num
  | (k + 2) =>
      rw [linspace01, if_neg (by omega)]

theorem uStage_eq_map (n : ℕ) : uStage n = (List.range n).map (uf n) := by
  rw [uStage, linspace01_eq_map, List.map_map]; rfl

theorem vStage_eq_map (ppf : ℚ → ℚ) (n : ℕ) (m s : ℚ) :
    vStage ppf n m s = (List.range n).map (vf ppf n m s) := by
  rw [vStage, uStage_eq_map, List.map_map]; rfl

theorem linspace01_length (n : ℕ) : (linspace01 n).length = n := by
  rw [linspace01_eq_map, List.length_map, List.length_range]

theorem uStage_length (n : ℕ) : (uStage n).length = n := by
  rw [uStage, List.length_map, linspace01_length]

theorem vStage_length (ppf : ℚ → ℚ) (n : ℕ) (m s : ℚ) :
    (vStage ppf n m s).length = n := by
  rw [vStage, List.length_map, uStage_length]

theorem tStage_length (ppf : ℚ → ℚ) (n : ℕ) (m s : ℚ) :
    (tStage ppf n m s).length = n := by
  rw [tStage, List.length_map, vStage_length]

theorem roundStage_length (ppf : ℚ → ℚ) (n : ℕ) (m s : ℚ) :
    (roundStage ppf n m s).length = n := by
  rw [roundStage, List.length_map, List.length_map, tStage_length]

/-! ## Clip and monotonicity facts -/

theorem npClip_mono (lo hi : ℚ) : Monotone (npClip lo hi) := fun _ _ h =>
  min_le_min le_rfl (max_le_max le_rfl h)

theorem div_le_div_of_nonneg_denom (a b c : ℚ) (hc : 0 ≤ c) (h : a ≤ b) :
    a / c ≤ b / c := by
  rcases eq_or_lt_of_le hc with rfl | hc
  · simp
  · exact (div_le_div_iff_of_pos_right hc).mpr h

theorem uf_mono (n : ℕ) (hn : 1 ≤ n) : Monotone (uf n) := by
  intro i j hij
  refine npClip_mono eps (1 - eps) ?_
  refine div_le_div_of_nonneg_denom _ _ _ ?_ (by exact_mod_cast hij)
  have h1 : (1 : ℚ) ≤ (n : ℚ) := by exact_mod_cast hn
  linarith

theorem vf_mono (ppf : ℚ → ℚ) (hppf : Monotone ppf) (n : ℕ) (hn : 1 ≤ n) (m s : ℚ)
    (hs : 0 ≤ s) : Monotone (vf ppf n m s) := by
  intro i j hij
  exact add_le_add_left (mul_le_mul_of_nonneg_left (hppf (uf_mono n hn hij)) hs) m

theorem vf_anti (ppf : ℚ → ℚ) (hppf : Monotone ppf) (n : ℕ) (hn : 1 ≤ n) (m s : ℚ)
    (hs : s ≤ 0) : Antitone (vf ppf n m s) := by
  intro i j hij
  exact add_le_add_left (mul_le_mul_of_nonpos_left (hppf (uf_mono n hn hij)) hs) m

/-! ## Min/max of a monotone (or antitone) image of `range n` -/

theorem qMin_range_map (f : ℕ → ℚ) (n : ℕ) (hn : 1 ≤ n)
    (hf : ∀ i j, i ≤ j → f i ≤ f j) : qMin ((List.range n).map f) = f 0 := by
  refine qMin_eq_of _ _ (List.mem_map.mpr ⟨0, List.mem_range.mpr hn, rfl⟩) ?_
  intro y hy
  rcases List.mem_map.mp hy with ⟨k, _, rfl⟩
  exact hf 0 k (Nat.zero_le k)

theorem qMax_range_map (f : ℕ → ℚ) (n : ℕ) (hn : 1 ≤ n)
    (hf : ∀ i j, i ≤ j → f i ≤ f j) : qMax ((List.range n).map f) = f (n - 1) := by
  refine qMax_eq_of _ _ (List.mem_map.mpr ⟨n - 1, List.mem_range.mpr (by omega), rfl⟩) ?_
  intro y hy
  rcases List.mem_map.mp hy with ⟨k, hk, rfl⟩
  exact hf k (n - 1) (by have := List.mem_range.mp hk; omega)

theorem qMin_range_map_anti (f : ℕ → ℚ) (n : ℕ) (hn : 1 ≤ n)
    (hf : ∀ i j, i ≤ j → f j ≤ f i) : qMin ((List.range n).map f) = f (n - 1) := by
  refine qMin_eq_of _ _ (List.mem_map.mpr ⟨n - 1, List.mem_range.mpr (by omega), rfl⟩) ?_
  intro y hy
  rcases List.mem_map.mp hy with ⟨k, hk, rfl⟩
  exact hf k (n - 1) (by have := List.mem_range.mp hk; omega)

theorem qMax_range_map_anti (f : ℕ → ℚ) (n : ℕ) (hn : 1 ≤ n)
    (hf : ∀ i j, i ≤ j → f j ≤ f i) : qMax ((List.range n).map f) = f 0 := by
  refine qMax_eq_of _ _ (List.mem_map.mpr ⟨0, List.mem_range.mpr hn, rfl⟩) ?_
  intro y hy
  rcases List.mem_map.mp hy with ⟨k, _, rfl⟩
  exact hf 0 k (Nat.zero_le k)

/-! ## Endpoint values of the clipped fractions -/

theorem uf_zero (n : ℕ) : uf n 0 = eps := by
  rw [uf]
  norm_num [npClip]
  rw [max_eq_left eps_pos.le, min_eq_right eps_le_one_sub_eps]

theorem uf_last (n : ℕ) (hn : 2 ≤ n) : uf n (n - 1) = 1 - eps := by
  rw [uf]
  have hne : ((n : ℚ) - 1) ≠ 0 := by
    have h2 : (2 : ℚ) ≤ (n : ℚ) := by exact_mod_cast hn
    intro h; linarith
  have hcast : ((n - 1 : ℕ) : ℚ) = (n : ℚ) - 1 := by
    have : 1 ≤ n := by omega
    push_cast [this]; ring
  rw [hcast, div_self hne, npClip]
  rw [max_eq_right (by linarith [eps_lt_half]), min_eq_left (by linarith [eps_pos])]

/-! ## Stage-6 repair: chain, membership, length, fixed points -/

theorem monoRepairAux_chain (l : List ℤ) (prev : ℤ) :
    List.Chain (· ≤ ·) prev (monoRepairAux prev l) := by
  induction l generalizing prev with
  | nil => exact List.Chain.nil
  | cons x xs ih =>
      rw [monoRepairAux]
      refine List.Chain.cons ?_ (ih _)
      by_cases h : x < prev
      · simp [h]
      · simp only [if_neg h]; omega

theorem monoRepair_chain (l : List ℤ) : List.Chain' (· ≤ ·) (monoRepair l) := by
  cases l with
  | nil => exact List.chain'_nil
  | cons x xs => exact monoRepairAux_chain xs x

theorem monoRepairAux_mem (l : List ℤ) (prev x : ℤ) (h : x ∈ monoRepairAux prev l) :
    x = prev ∨ x ∈ l := by
  induction l generalizing prev with
  | nil => cases h
  | cons a as ih =>
      rw [monoRepairAux] at h
      rcases List.mem_cons.mp h with rfl | h
      · by_cases ha : a < prev
        · rw [if_pos ha]; exact Or.inl rfl
        · rw [if_neg ha]; exact Or.inr (List.mem_cons_self a as)
      · rcases ih _ h with he | hm
        · by_cases ha : a < prev
          · rw [if_pos ha] at he; exact Or.inl he
          · rw [if_neg ha] at he; exact Or.inr (he ▸ List.mem_cons_self a as)
        · exact Or.inr (List.mem_cons_of_mem a hm)

theorem monoRepair_mem (l : List ℤ) (x : ℤ) (h : x ∈ monoRepair l) : x ∈ l := by
  cases l with
  | nil => cases h
  | cons a as =>
      rcases List.mem_cons.mp h with rfl | h
      · exact List.mem_cons_self _ _
      · rcases monoRepairAux_mem as a x h with rfl | hm
        · exact List.mem_cons_self _ _
        · exact List.mem_cons_of_mem a hm

theorem monoRepairAux_length (l : List ℤ) (prev : ℤ) :
    (monoRepairAux prev l).length = l.length := by
  induction l generalizing prev with
  | nil => rfl
  | cons a as ih => rw [monoRepairAux, List.length_cons, List.length_cons, ih]

theorem monoRepair_length (l : List ℤ) : (monoRepair l).length = l.length := by
  cases l with
  | nil => rfl
  | cons a as => rw [monoRepair, List.length_cons, List.length_cons, monoRepairAux_length]

theorem monoRepairAux_of_chain (l : List ℤ) (prev : ℤ)
    (h : List.Chain (· ≤ ·) prev l) : monoRepairAux prev l = l := by
  induction l generalizing prev with
  | nil => rfl
  | cons a as ih =>
      rcases List.chain_cons.mp h with ⟨hpa, hch⟩
      rw [monoRepairAux, if_neg (by omega)]
      exact congrArg (a :: ·) (ih a hch)

theorem monoRepair_of_chain (l : List ℤ) (h : List.Chain' (· ≤ ·) l) :
    monoRepair l = l := by
  cases l with
  | nil => rfl
  | cons a as => rw [monoRepair]; exact congrArg (a :: ·) (monoRepairAux_of_chain as a h)

theorem monoRepair_headI (l : List ℤ) : (monoRepair l).head? = l.head? := by
  cases l with
  | nil => rfl
  | cons a as => rfl

/-! ## Stage-5 facts: banker's rounding and the integer clip -/

theorem roundHE_floor_le (x : ℚ) : ⌊x⌋ ≤ roundHE x := by
  rw [roundHE]
  split_ifs <;> omega

theorem roundHE_le_floor_add_one (x : ℚ) : roundHE x ≤ ⌊x⌋ + 1 := by
  rw [roundHE]
  split_ifs <;> omega

theorem roundHE_mono : Monotone roundHE := by
  intro x y hxy
  have hf : ⌊x⌋ ≤ ⌊y⌋ := Int.floor_le_floor hxy
  rcases eq_or_lt_of_le hf with he | hlt
  · have hr : x - (⌊x⌋ : ℚ) ≤ y - (⌊y⌋ : ℚ) := by
      rw [← he]; linarith
    rw [roundHE, roundHE, ← he]
    split_ifs <;> first | omega | linarith
  · calc roundHE x ≤ ⌊x⌋ + 1 := roundHE_le_floor_add_one x
      _ ≤ ⌊y⌋ := by omega
      _ ≤ roundHE y := roundHE_floor_le y

theorem roundHE_zero : roundHE 0 = 0 := by norm_num [roundHE]

theorem intClip_mono (lo hi : ℤ) : Monotone (intClip lo hi) := fun _ _ h =>
  min_le_min le_rfl (max_le_max le_rfl h)

theorem intClip_bounds (lo hi x : ℤ) (h : lo ≤ hi) :
    lo ≤ intClip lo hi x ∧ intClip lo hi x ≤ hi := by
  constructor
  · exact le_min h (le_max_left lo x)
  · exact min_le_left hi _

theorem intClip_of_mem (lo hi x : ℤ) (hlo : lo ≤ x) (hhi : x ≤ hi) :
    intClip lo hi x = x := by
  rw [intClip, max_eq_right hlo, min_eq_right hhi]

/-! ## Indexed access into mapped ranges -/

theorem getD_range_map (f : ℕ → ℚ) (n i : ℕ) (hi : i < n) (d : ℚ) :
    ((List.range n).map f).getD i d = f i := by
  have hlen : i < ((List.range n).map f).length := by
    rw [List.length_map, List.length_range]; exact hi
  rw [List.getD_eq_getElem _ _ hlen, List.getElem_map, List.getElem_range]

/-! ## The mean shift `m` is cancelled by stage 4 -/

theorem foldl_min_add_const (xs : List ℚ) (x c : ℚ) :
    (xs.map (fun y => c + y)).foldl min (c + x) = c + xs.foldl min x := by
  induction xs generalizing x with
  | nil => rfl
  | cons a as ih =>
      rw [List.map_cons, List.foldl_cons, List.foldl_cons, min_add_add_left, ih]

theorem foldl_max_add_const (xs : List ℚ) (x c : ℚ) :
    (xs.map (fun y => c + y)).foldl max (c + x) = c + xs.foldl max x := by
  induction xs generalizing x with
  | nil => rfl
  | cons a as ih =>
      rw [List.map_cons, List.foldl_cons, List.foldl_cons, max_add_add_left, ih]

theorem qMin_map_add (l : List ℚ) (c : ℚ) (h : l ≠ []) :
    qMin (l.map (fun y => c + y)) = c + qMin l := by
  cases l with
  | nil => exact absurd rfl h
  | cons x xs => exact foldl_min_add_const xs x c

theorem qMax_map_add (l : List ℚ) (c : ℚ) (h : l ≠ []) :
    qMax (l.map (fun y => c + y)) = c + qMax l := by
  cases l with
  | nil => exact absurd rfl h
  | cons x xs => exact foldl_max_add_const xs x c

/-- The warped sequence with the mean shift stripped: `w = s * norm.ppf(u)`. -/
def wStage (ppf : ℚ → ℚ) (n : ℕ) (s : ℚ) : List ℚ :=
  (uStage n).map (fun u => s * ppf u)

theorem vStage_eq_wStage (ppf : ℚ → ℚ) (n : ℕ) (m s : ℚ) :
    vStage ppf n m s = (wStage ppf n s).map (fun y => m + y) := by
  rw [vStage, wStage, List.map_map]; rfl

theorem wStage_ne_nil (ppf : ℚ → ℚ) (n : ℕ) (s : ℚ) (hn : 1 ≤ n) :
    wStage ppf n s ≠ [] := by
  intro h
  have := congrArg List.length h
  rw [wStage, List.length_map, uStage_length] at this
  simp at this
  omega

/-- Stage 4 with the mean shift cancelled: `tStage` does not depend on `m`. -/
theorem tStage_m_free (ppf : ℚ → ℚ) (n : ℕ) (hn : 1 ≤ n) (m s : ℚ) :
    tStage ppf n m s =
      (wStage ppf n s).map
        (fun x => (x - qMin (wStage ppf n s)) /
          (qMax (wStage ppf n s) - qMin (wStage ppf n s)) * ((n : ℚ) - 1)) := by
  have hne := wStage_ne_nil ppf n s hn
  rw [tStage, vStage_eq_wStage, qMin_map_add _ _ hne, qMax_map_add _ _ hne, List.map_map]
  refine List.map_congr_left ?_
  intro x _
  show (m + x - (m + qMin (wStage ppf n s))) /
      (m + qMax (wStage ppf n s) - (m + qMin (wStage ppf n s))) * ((n : ℚ) - 1) = _
  ring_nf

/-! ## Reflection symmetry of the clipped fractions -/

theorem clip_comm (lo hi z : ℚ) (h : lo ≤ hi) : min hi (max lo z) = max lo (min hi z) := by
  rcases le_total z lo with hz | hz
  · rw [max_eq_left hz, min_eq_right h, min_eq_right (hz.trans h), max_eq_left hz]
  · rcases le_total z hi with hz2 | hz2
    · rw [max_eq_right hz, min_eq_right hz2, max_eq_right hz]
    · rw [min_eq_left hz2, max_eq_right hz, min_eq_left hz2, max_eq_right h]

theorem npClip_one_sub (x : ℚ) :
    npClip eps (1 - eps) (1 - x) = 1 - npClip eps (1 - eps) x := by
  have h1 := eps_le_one_sub_eps
  rw [npClip, npClip]
  rcases le_total x eps with hx | hx
  · rw [max_eq_left hx, min_eq_right h1,
      max_eq_right (by linarith : eps ≤ 1 - x), min_eq_left (by linarith)]
  · rcases le_total x (1 - eps) with hx2 | hx2
    · rw [max_eq_right hx, min_eq_right hx2,
        max_eq_right (by linarith : eps ≤ 1 - x), min_eq_right (by linarith)]
    · rw [max_eq_right hx, min_eq_left hx2,
        max_eq_left (by linarith : 1 - x ≤ eps), min_eq_right h1]
      ring

theorem uf_reflect (n : ℕ) (hn : 2 ≤ n) (i : ℕ) (hi : i < n) :
    uf n (n - 1 - i) = 1 - uf n i := by
  have hne : ((n : ℚ) - 1) ≠ 0 := by
    have h2 : (2 : ℚ) ≤ (n : ℚ) := by exact_mod_cast hn
    intro h; linarith
  rw [uf, uf, ← npClip_one_sub]
  congr 1
  rw [Nat.cast_sub (by omega : i ≤ n - 1), Nat.cast_sub (by omega : 1 ≤ n), Nat.cast_one]
  field_simp

theorem vf_reflect (ppf : ℚ → ℚ) (hsym : ∀ u : ℚ, ppf (1 - u) = - ppf u) (n : ℕ)
    (hn : 2 ≤ n) (s : ℚ) (i : ℕ) (hi : i < n) :
    vf ppf n 0 s (n - 1 - i) = - vf ppf n 0 s i := by
  rw [vf, vf, uf_reflect n hn i hi, hsym]
  ring

/-! ## Stage 4 as a map over `range n`, head and chain structure -/

theorem tStage_eq_map (ppf : ℚ → ℚ) (n : ℕ) (m s : ℚ) :
    tStage ppf n m s = (List.range n).map (fun i =>
      (vf ppf n m s i - qMin ((List.range n).map (vf ppf n m s))) /
        (qMax ((List.range n).map (vf ppf n m s)) -
          qMin ((List.range n).map (vf ppf n m s))) * ((n : ℚ) - 1)) := by
  rw [tStage, vStage_eq_map, List.map_map]
  rfl

theorem tStage_head (ppf : ℚ → ℚ) (hppf : Monotone ppf) (n : ℕ) (hn : 1 ≤ n)
    (m s : ℚ) (hs : 0 ≤ s) : (tStage ppf n m s).head? = some 0 := by
  have hvm : ∀ i j, i ≤ j → vf ppf n m s i ≤ vf ppf n m s j :=
    fun i j hij => vf_mono ppf hppf n hn m s hs hij
  obtain ⟨k, rfl⟩ : ∃ k, n = k + 1 := ⟨n - 1, by omega⟩
  rw [tStage_eq_map, qMin_range_map _ _ hn hvm, List.range_succ_eq_map,
    List.map_cons, List.head?_cons]
  norm_num

theorem chain_range_map_int (g : ℕ → ℤ) (n : ℕ) (hg : ∀ i j, i ≤ j → g i ≤ g j) :
    List.Chain' (· ≤ ·) ((List.range n).map g) := by
  refine List.Pairwise.chain' ?_
  refine List.pairwise_map.mpr ?_
  exact (List.pairwise_lt_range n).imp (fun h => hg _ _ (le_of_lt h))

theorem roundStage_chain (ppf : ℚ → ℚ) (hppf : Monotone ppf) (n : ℕ) (hn : 1 ≤ n)
    (m s : ℚ) (hs : 0 ≤ s) : List.Chain' (· ≤ ·) (roundStage ppf n m s) := by
  have hvm : ∀ i j, i ≤ j → vf ppf n m s i ≤ vf ppf n m s j :=
    fun i j hij => vf_mono ppf hppf n hn m s hs hij
  have hD : 0 ≤ qMax ((List.range n).map (vf ppf n m s)) -
      qMin ((List.range n).map (vf ppf n m s)) := by
    have hne : (List.range n).map (vf ppf n m s) ≠ [] := by
      intro h
      have := congrArg List.length h
      rw [List.length_map, List.length_range] at this
      simp at this
      omega
    linarith [qMin_le_qMax _ hne]
  have hn1 : (0 : ℚ) ≤ (n : ℚ) - 1 := by
    have h1 : (1 : ℚ) ≤ (n : ℚ) := by exact_mod_cast hn
    linarith
  rw [roundStage, tStage_eq_map, List.map_map, List.map_map]
  refine chain_range_map_int _ n ?_
  intro i j hij
  refine intClip_mono 0 ((n : ℤ) - 1) (roundHE_mono ?_)
  refine mul_le_mul_of_nonneg_right ?_ hn1
  exact div_le_div_of_nonneg_denom _ _ _ hD (by linarith [hvm i j hij])

/-! ## Claim theorems -/

/-- Claim C1, counterexample to the claim as stated: at `num_steps = 0` (and
`num_steps = -1`) the call fails, but with the numpy `ValueError`, which is
not the `InvalidArgument` error kind the claim names. -/
theorem claim_C1_counterexample :
    get_biased_timesteps (fun u => u) 0 0 (1 / 2) = Except.error PyError.valueError ∧
    get_biased_timesteps (fun u => u) (-1) 0 (1 / 2) = Except.error PyError.valueError ∧
    (Except.error PyError.valueError : Except PyError (List ℤ)) ≠
      Except.error PyError.invalidArgument := by
  refine ⟨rfl, rfl, ?_⟩
  simp

/-- Claim C1, amended: for every integer `num_steps < 1` the call fails with
an error (the numpy `ValueError`: negative sample count in `linspace` for
`num_steps < 0`, empty-array `min` reduction for `num_steps = 0`), returning
no sequence. -/
theorem claim_C1_invalid_input (ppf : ℚ → ℚ) (num_steps : ℤ) (m s : ℚ)
    (h : num_steps < 1) :
    get_biased_timesteps ppf num_steps m s = Except.error PyError.valueError := by
  rw [get_biased_timesteps]
  rcases lt_or_ge num_steps 0 with h0 | h0
  · rw [if_pos h0]
  · rw [if_neg (not_lt.mpr h0), if_pos (by omega)]

theorem claim_C1_invalid_input_witness :
    (0 : ℤ) < 1 ∧
      get_biased_timesteps (fun u => u) 0 0 (1 / 2) = Except.error PyError.valueError :=
  ⟨by norm_num, claim_C1_invalid_input (fun u => u) 0 0 (1 / 2) (by norm_num)⟩

/-- Claim C2: for `num_steps = 1` (any `m`, `s`, and any probit primitive)
the function returns the single-element sequence `[0]`. -/
theorem claim_C2_degenerate (ppf : ℚ → ℚ) (m s : ℚ) :
    get_biased_timesteps ppf 1 m s = Except.ok [0] := by
  have h1 : (1 : ℤ).toNat = 1 := rfl
  rw [get_biased_timesteps, if_neg (by norm_num), if_neg (by norm_num), h1]
  rw [roundStage, tStage, vStage, uStage, linspace01]
  norm_num [qMin, qMax, monoRepair, monoRepairAux, intClip, roundHE_zero]

/-- Claim C3: for every positive `num_steps` and all `m`, `s` (and any
probit primitive), the returned sequence is non-decreasing. -/
theorem claim_C3_monotone (ppf : ℚ → ℚ) (num_steps : ℤ) (m s : ℚ)
    (h : 0 < num_steps) (l : List ℤ)
    (hl : get_biased_timesteps ppf num_steps m s = Except.ok l) :
    l.Chain' (· ≤ ·) := by
  rw [get_biased_timesteps, if_neg (by omega), if_neg (by omega)] at hl
  cases hl
  exact monoRepair_chain _

theorem claim_C3_monotone_witness : List.Chain' (· ≤ ·) ([0, 1, 2] : List ℤ) :=
  claim_C3_monotone (fun u => u) 3 0 (1 / 2) (by norm_num) [0, 1, 2]
    (by
      have h3 : (3 : ℤ).toNat = 3 := rfl
      norm_num [get_biased_timesteps, h3, roundStage, tStage, vStage, uStage,
        linspace01, List.range_succ, List.map_append, npClip, eps, qMin, qMax,
        roundHE, intClip, monoRepair, monoRepairAux])

/-- Claim C4: for every positive `num_steps` and all `m`, `s` (and any
probit primitive), every element of the returned sequence is an integer in
`[0, num_steps - 1]`. -/
theorem claim_C4_bounds (ppf : ℚ → ℚ) (num_steps : ℤ) (m s : ℚ)
    (h : 0 < num_steps) (l : List ℤ)
    (hl : get_biased_timesteps ppf num_steps m s = Except.ok l) :
    ∀ x ∈ l, 0 ≤ x ∧ x ≤ num_steps - 1 := by
  rw [get_biased_timesteps, if_neg (by omega), if_neg (by omega)] at hl
  cases hl
  intro x hx
  have hx' := monoRepair_mem _ x hx
  rw [roundStage] at hx'
  rcases List.mem_map.mp hx' with ⟨y, _, rfl⟩
  have htn : ((num_steps.toNat : ℤ)) = num_steps := Int.toNat_of_nonneg h.le
  have hb := intClip_bounds 0 ((num_steps.toNat : ℤ) - 1) y (by omega)
  omega

theorem claim_C4_bounds_witness : (0 : ℤ) ≤ 2 ∧ (2 : ℤ) ≤ 3 - 1 :=
  claim_C4_bounds (fun u => u) 3 0 (1 / 2) (by norm_num) [0, 1, 2]
    (by
      have h3 : (3 : ℤ).toNat = 3 := rfl
      norm_num [get_biased_timesteps, h3, roundStage, tStage, vStage, uStage,
        linspace01, List.range_succ, List.map_append, npClip, eps, qMin, qMax,
        roundHE, intClip, monoRepair, monoRepairAux])
    2 (by norm_num)

/-- Claim C5: for every positive `num_steps` and all `m`, `s` (and any
probit primitive), the returned sequence has exactly `num_steps` elements. -/
theorem claim_C5_length (ppf : ℚ → ℚ) (num_steps : ℤ) (m s : ℚ)
    (h : 0 < num_steps) (l : List ℤ)
    (hl : get_biased_timesteps ppf num_steps m s = Except.ok l) :
    (l.length : ℤ) = num_steps := by
  rw [get_biased_timesteps, if_neg (by omega), if_neg (by omega)] at hl
  cases hl
  rw [monoRepair_length, roundStage_length]
  exact Int.toNat_of_nonneg h.le

theorem claim_C5_length_witness : ((([0, 1, 2] : List ℤ)).length : ℤ) = 3 :=
  claim_C5_length (fun u => u) 3 0 (1 / 2) (by norm_num) [0, 1, 2]
    (by
      have h3 : (3 : ℤ).toNat = 3 := rfl
      norm_num [get_biased_timesteps, h3, roundStage, tStage, vStage, uStage,
        linspace01, List.range_succ, List.map_append, npClip, eps, qMin, qMax,
        roundHE, intClip, monoRepair, monoRepairAux])

/-- Claim C9: the output is independent of the mean shift `m`: stage 4's
subtraction of `min(v)` cancels the additive shift exactly. -/
theorem claim_C9_m_independent (ppf : ℚ → ℚ) (num_steps : ℤ) (s : ℚ)
    (h : 0 < num_steps) (m1 m2 : ℚ) :
    get_biased_timesteps ppf num_steps m1 s = get_biased_timesteps ppf num_steps m2 s := by
  have hn : 1 ≤ num_steps.toNat := by omega
  rw [get_biased_timesteps, get_biased_timesteps,
    if_neg (by omega), if_neg (by omega), if_neg (by omega), if_neg (by omega),
    roundStage, roundStage, tStage_m_free _ _ hn m1 s, tStage_m_free _ _ hn m2 s]

theorem claim_C9_m_independent_witness :
    get_biased_timesteps (fun u => u) 3 5 (1 / 2) =
      get_biased_timesteps (fun u => u) 3 (-2) (1 / 2) :=
  claim_C9_m_independent (fun u => u) 3 (1 / 2) (by norm_num) 5 (-2)

/-- Claim C6: with the default parameters `m = 0`, `s = 1/2` (and a monotone
probit primitive, as the true `norm.ppf` is), the first element of the
returned sequence equals 0 for every `num_steps ≥ 1`. -/
theorem claim_C6_first_elem (ppf : ℚ → ℚ) (hppf : Monotone ppf) (num_steps : ℤ)
    (h : 0 < num_steps) (l : List ℤ)
    (hl : get_biased_timesteps ppf num_steps 0 (1 / 2) = Except.ok l) :
    l.head? = some 0 := by
  rw [get_biased_timesteps, if_neg (by omega), if_neg (by omega)] at hl
  cases hl
  rw [monoRepair_headI, roundStage, List.head?_map, List.head?_map,
    tStage_head ppf hppf _ (by omega) 0 (1 / 2) (by norm_num)]
  rw [Option.map_some', Option.map_some', roundHE_zero,
    intClip_of_mem 0 _ 0 le_rfl (by omega)]

theorem claim_C6_first_elem_witness : ([0, 1, 2] : List ℤ).head? = some 0 :=
  claim_C6_first_elem (fun u => u) (fun _ _ h => h) 3 (by norm_num) [0, 1, 2]
    (by
      have h3 : (3 : ℤ).toNat = 3 := rfl
      norm_num [get_biased_timesteps, h3, roundStage, tStage, vStage, uStage,
        linspace01, List.range_succ, List.map_append, npClip, eps, qMin, qMax,
        roundHE, intClip, monoRepair, monoRepairAux])

/-- Claim C7: for `m = 0`, `s > 0` and `num_steps ≥ 2`, with the probit
primitive strictly monotone and odd-reflective (`Φ⁻¹(1-u) = -Φ⁻¹(u)`, as the
true `norm.ppf` is), the continuous stage-4 sequence is symmetric about the
midpoint: `t_i + t_{n-1-i} = n - 1` for every index `i < n`. -/
theorem claim_C7_symmetry (ppf : ℚ → ℚ) (hmono : StrictMono ppf)
    (hsym : ∀ u : ℚ, ppf (1 - u) = - ppf u) (n : ℕ) (hn : 2 ≤ n) (s : ℚ)
    (hs : 0 < s) (i : ℕ) (hi : i < n) :
    (tStage ppf n 0 s).getD i 0 + (tStage ppf n 0 s).getD (n - 1 - i) 0 =
      (n : ℚ) - 1 := by
  have hn1 : 1 ≤ n := by omega
  have hvm : ∀ a b, a ≤ b → vf ppf n 0 s a ≤ vf ppf n 0 s b :=
    fun a b hab => vf_mono ppf hmono.monotone n hn1 0 s hs.le hab
  have hA : qMin ((List.range n).map (vf ppf n 0 s)) = vf ppf n 0 s 0 :=
    qMin_range_map _ n hn1 hvm
  have hB : qMax ((List.range n).map (vf ppf n 0 s)) = vf ppf n 0 s (n - 1) :=
    qMax_range_map _ n hn1 hvm
  have hB0 : vf ppf n 0 s (n - 1) = - vf ppf n 0 s 0 := by
    have h0 := vf_reflect ppf hsym n hn s 0 (by omega)
    simpa using h0
  have hlt : vf ppf n 0 s 0 < vf ppf n 0 s (n - 1) := by
    rw [vf, vf, uf_zero, uf_last n hn]
    have hp := hmono eps_lt_one_sub_eps
    have := mul_lt_mul_of_pos_left hp hs
    linarith
  have hD0 : (- vf ppf n 0 s 0 - vf ppf n 0 s 0 : ℚ) ≠ 0 := by
    rw [hB0] at hlt
    linarith
  rw [tStage_eq_map, getD_range_map _ n i hi,
    getD_range_map _ n (n - 1 - i) (by omega : n - 1 - i < n)]
  simp only [hA, hB, hB0, vf_reflect ppf hsym n hn s i hi]
  field_simp
  ring

theorem claim_C7_symmetry_witness :
    (tStage (fun u => u - 1 / 2) 3 0 (1 / 2)).getD 1 0 +
      (tStage (fun u => u - 1 / 2) 3 0 (1 / 2)).getD (3 - 1 - 1) 0 = (3 : ℚ) - 1 :=
  claim_C7_symmetry (fun u => u - 1 / 2)
    (fun a b hab => by simpa using hab)
    (fun u => by ring) 3 (by norm_num) (1 / 2) (by norm_num) 1 (by norm_num)

/-- Claim C8, counterexample to the claim as stated: the function accepts
`s = 0` (no guard on `s`), and at `num_steps = 2`, `m = 0`, `s = 0` the
warped sequence is constant, so the stage-4 denominator `max(v) - min(v)`
is zero even though `num_steps ≥ 2`. -/
theorem claim_C8_counterexample :
    qMax (vStage (fun u => u) 2 0 0) - qMin (vStage (fun u => u) 2 0 0) = 0 := by
  norm_num [vStage, uStage, linspace01, List.range_succ, npClip, eps, qMin, qMax]

/-- Claim C8, amended: for every `num_steps ≥ 2`, any `m`, and any `s ≠ 0`
(with the probit primitive strictly monotone, as the true `norm.ppf` is),
the stage-4 denominator `max(v) - min(v)` is nonzero.  (`s = 0` is accepted
by the function and makes the denominator zero, so it must be excluded.) -/
theorem claim_C8_denominator (ppf : ℚ → ℚ) (hmono : StrictMono ppf) (n : ℕ)
    (hn : 2 ≤ n) (m s : ℚ) (hs : s ≠ 0) :
    qMax (vStage ppf n m s) - qMin (vStage ppf n m s) ≠ 0 := by
  have hn1 : 1 ≤ n := by omega
  have hpp : ppf eps < ppf (1 - eps) := hmono eps_lt_one_sub_eps
  rw [vStage_eq_map]
  rcases lt_or_gt_of_ne hs with hneg | hpos
  · rw [qMin_range_map_anti _ n hn1
        (fun i j hij => vf_anti ppf hmono.monotone n hn1 m s hneg.le hij),
      qMax_range_map_anti _ n hn1
        (fun i j hij => vf_anti ppf hmono.monotone n hn1 m s hneg.le hij)]
    have hv : vf ppf n m s (n - 1) < vf ppf n m s 0 := by
      rw [vf, vf, uf_zero, uf_last n hn]
      have := mul_lt_mul_of_neg_left hpp hneg
      linarith
    linarith
  · rw [qMin_range_map _ n hn1
        (fun i j hij => vf_mono ppf hmono.monotone n hn1 m s hpos.le hij),
      qMax_range_map _ n hn1
        (fun i j hij => vf_mono ppf hmono.monotone n hn1 m s hpos.le hij)]
    have hv : vf ppf n m s 0 < vf ppf n m s (n - 1) := by
      rw [vf, vf, uf_zero, uf_last n hn]
      have := mul_lt_mul_of_pos_left hpp hpos
      linarith
    linarith

theorem claim_C8_denominator_witness :
    qMax (vStage (fun u => u) 2 0 (1 / 2)) - qMin (vStage (fun u => u) 2 0 (1 / 2)) ≠ 0 :=
  claim_C8_denominator (fun u => u) (fun _ _ h => h) 2 (by norm_num) 0 (1 / 2)
    (by norm_num)

/-- Claim C10: for `num_steps ≥ 2` and `s > 0` (any `m`, monotone probit
primitive), the stage-5 rounded, clamped sequence is already non-decreasing,
so the stage-6 repair loop modifies no element: the function equals the
variant with the repair loop removed. -/
theorem claim_C10_norepair (ppf : ℚ → ℚ) (hppf : Monotone ppf) (num_steps : ℤ)
    (m s : ℚ) (hn : 2 ≤ num_steps) (hs : 0 < s) :
    List.Chain' (· ≤ ·) (roundStage ppf num_steps.toNat m s) ∧
      get_biased_timesteps ppf num_steps m s =
        get_biased_timesteps_norepair ppf num_steps m s := by
  have hc := roundStage_chain ppf hppf num_steps.toNat (by omega) m s hs.le
  refine ⟨hc, ?_⟩
  rw [get_biased_timesteps, get_biased_timesteps_norepair,
    if_neg (by omega), if_neg (by omega), if_neg (by omega), if_neg (by omega),
    monoRepair_of_chain _ hc]

theorem claim_C10_norepair_witness :
    List.Chain' (· ≤ ·) (roundStage (fun u => u) (3 : ℤ).toNat 0 (1 / 2)) ∧
      get_biased_timesteps (fun u => u) 3 0 (1 / 2) =
        get_biased_timesteps_norepair (fun u => u) 3 0 (1 / 2) :=
  claim_C10_norepair (fun u => u) (fun _ _ h => h) 3 0 (1 / 2) (by norm_num)
    (by norm_num)

end Scheduler
